import Mathlib

/-!
Verification of the Lights Out solver (`main.py`).

The program solves the Lights Out puzzle by building the toggle-adjacency
coefficient matrix over GF(2) and running Gaussian elimination with
back-substitution on the augmented matrix.  This file is a shallow embedding
of the source into Lean: Python lists become `List`, numpy integer cells
become `Nat` (all arithmetic in the solver is non-negative: the only
operations are `+`, `*`, `% 2` and comparisons with `1`), out-of-range reads
never happen on the executions the theorems talk about, and `List.getD`
mirrors indexing.  Fallible results (`None` in Python) become `Option`.
-/

/-- Entry access `aug[r][c]` for a list-of-rows matrix; reads outside the
matrix yield `0` (such reads do not occur in the modelled executions). -/
def E (aug : List (List Nat)) (r c : Nat) : Nat :=
  (aug.getD r []).getD c 0

/-- `(a + b) % 2` elementwise: numpy `(aug[row] + aug[pivot_row]) % 2`
(main.py line 84). -/
def addRowsMod2 (a b : List Nat) : List Nat :=
  (List.zipWith (· + ·) a b).map (· % 2)

/-- Row swap `aug[[i, j]] = aug[[j, i]]` (main.py line 75). -/
def swapRows (aug : List (List Nat)) (i j : Nat) : List (List Nat) :=
  let ri := aug.getD i []
  let rj := aug.getD j []
  (aug.set i rj).set j ri

/-- Pivot search, main.py lines 73-77: scan rows `r, r+1, ...` (`k` rows
remaining) for the first row with `aug[row][col] == 1`. -/
def findPivotRow (aug : List (List Nat)) (col : Nat) : Nat → Nat → Option Nat
  | _, 0 => none
  | r, k+1 => if E aug r col = 1 then some r else findPivotRow aug col (r+1) k

/-- Elimination sweep, main.py lines 82-84: for each row `r ≠ p` with a `1`
in `col`, replace it by `(row + pivot row) % 2`.  `r` is the next row to
consider, `k` the number of rows still to be visited. -/
def elimRows (p col : Nat) : List (List Nat) → Nat → Nat → List (List Nat)
  | aug, _, 0 => aug
  | aug, r, k+1 =>
    elimRows p col
      (if r ≠ p ∧ E aug r col = 1
       then aug.set r (addRowsMod2 (aug.getD r []) (aug.getD p []))
       else aug) (r+1) k

/-- Forward elimination, main.py lines 70-86: walk the columns (starting at
`col`, `k` columns remaining), maintaining the pivot row counter `p`. -/
def elimLoop (n : Nat) : List (List Nat) → Nat → Nat → Nat → List (List Nat) × Nat
  | aug, p, _, 0 => (aug, p)
  | aug, p, col, k+1 =>
    match findPivotRow aug col p (n - p) with
    | none => elimLoop n aug p (col+1) k
    | some row => elimLoop n (elimRows p col (swapRows aug p row) 0 n) (p+1) (col+1) k

/-- Leading-column search, main.py lines 91-95: first `c` (starting at `c`,
`k` columns remaining) with `row[c] == 1`; `none` models `leading_col == -1`. -/
def findLead (row : List Nat) : Nat → Nat → Option Nat
  | _, 0 => none
  | c, k+1 => if row.getD c 0 = 1 then some c else findLead row (c+1) k

/-- Accumulation `val = (val + aug[row][col] * x[col]) % 2`, main.py
lines 102-104, over columns `c, c+1, ...` (`k` remaining). -/
def valLoop (row x : List Nat) : Nat → Nat → Nat → Nat
  | v, _, 0 => v
  | v, c, k+1 => valLoop row x ((v + row.getD c 0 * x.getD c 0) % 2) (c+1) k

/-- Back-substitution, main.py lines 90-105: process rows `r-1, r-2, ..., 0`
(the Python loop `for row in range(min(pivot_row, n) - 1, -1, -1)`), updating
the solution vector `x`; `none` models `return None` at line 99. -/
def backSub (aug : List (List Nat)) (m : Nat) : Nat → List Nat → Option (List Nat)
  | 0, x => some x
  | r+1, x =>
    let rowv := aug.getD r []
    match findLead rowv 0 m with
    | none => if rowv.getD m 0 = 1 then none else backSub aug m r x
    | some lc =>
      backSub aug m r (x.set lc (valLoop rowv x (rowv.getD m 0) (lc+1) (m - (lc+1))))

/-- `gaussian_elimination_gf2(A, b)`, main.py lines 63-107. -/
def gaussian_elimination_gf2 (A : List (List Nat)) (b : List Nat) : Option (List Nat) :=
  let n := b.length
  let m := (A.getD 0 []).length
  let aug := List.zipWith (fun row bi => row ++ [bi]) A b
  let res := elimLoop n aug 0 0 m
  backSub res.1 m (min res.2 n) (List.replicate m 0)

/-- Write `A[r][c] = v` (no-op when out of range, which does not occur in the
modelled executions). -/
def setE (A : List (List Nat)) (r c v : Nat) : List (List Nat) :=
  A.set r ((A.getD r []).set c v)

/-- Body of the matrix-construction loop, main.py lines 21-41: pressing
button `(i, j)` toggles itself and its in-bounds 4-neighbours, so column
`i*cols+j` gets a `1` in the corresponding light rows. -/
def pressStep (rows cols i j : Nat) (A : List (List Nat)) : List (List Nat) :=
  let bidx := i * cols + j
  let A1 := setE A (i * cols + j) bidx 1
  let A2 := if 0 < i then setE A1 ((i-1) * cols + j) bidx 1 else A1
  let A3 := if i < rows - 1 then setE A2 ((i+1) * cols + j) bidx 1 else A2
  let A4 := if 0 < j then setE A3 (i * cols + (j-1)) bidx 1 else A3
  let A5 := if j < cols - 1 then setE A4 (i * cols + (j+1)) bidx 1 else A4
  A5

/-- Coefficient-matrix construction, main.py lines 19-41, starting from
`np.zeros((n, n))`. -/
def buildA (rows cols : Nat) : List (List Nat) :=
  (List.range rows).foldl
    (fun A i => (List.range cols).foldl (fun A j => pressStep rows cols i j A) A)
    (List.replicate (rows*cols) (List.replicate (rows*cols) 0))

/-- Board flattening `[board[i][j] for i in range(rows) for j in range(cols)]`,
main.py line 44 (row-major). -/
def flattenBoard (board : List (List Nat)) : List Nat :=
  ((List.range board.length).map (fun i =>
    (List.range ((board.getD 0 []).length)).map (fun j =>
      (board.getD i []).getD j 0))).flatten

/-- Reshaping of the solution vector into a grid, main.py lines 53-58. -/
def reshape (rows cols : Nat) (x : List Nat) : List (List Nat) :=
  (List.range rows).map (fun i => (List.range cols).map (fun j => x.getD (i*cols+j) 0))

/-- `solve_lights_out(board)`, main.py lines 3-60. -/
def solve_lights_out (board : List (List Nat)) : Option (List (List Nat)) :=
  let rows := board.length
  let cols := (board.getD 0 []).length
  let A := buildA rows cols
  let b := flattenBoard board
  match gaussian_elimination_gf2 A b with
  | none => none
  | some x => some (reshape rows cols x)

/-- Toggle `result[i][j] = 1 - result[i][j]` (main.py lines 123-132; on the
bit grids the claims are about, cells stay in `{0,1}`, where Nat and Python
subtraction agree). -/
def toggleCell (res : List (List Nat)) (i j : Nat) : List (List Nat) :=
  res.set i ((res.getD i []).set j (1 - (res.getD i []).getD j 0))

/-- Replay of one button press, main.py lines 122-132. -/
def pressAt (rows cols : Nat) (res : List (List Nat)) (i j : Nat) : List (List Nat) :=
  let r1 := toggleCell res i j
  let r2 := if 0 < i then toggleCell r1 (i-1) j else r1
  let r3 := if i < rows - 1 then toggleCell r2 (i+1) j else r2
  let r4 := if 0 < j then toggleCell r3 i (j-1) else r3
  let r5 := if j < cols - 1 then toggleCell r4 i (j+1) else r4
  r5

/-- `verify_solution(board, solution)`, main.py lines 110-137: replay every
press against a copy of the board (`result = [row[:] for row in board]` is a
fresh copy, which a pure value models directly) and report whether all lights
are off, together with the final grid. -/
def verify_solution (board solution : List (List Nat)) : Bool × List (List Nat) :=
  let rows := board.length
  let cols := (board.getD 0 []).length
  let result := (List.range rows).foldl
    (fun res i => (List.range cols).foldl
      (fun res j =>
        if (solution.getD i []).getD j 0 = 1 then pressAt rows cols res i j else res) res)
    board
  ((List.range rows).all (fun i =>
      (List.range cols).all (fun j => (result.getD i []).getD j 0 == 0)),
   result)

/-- Forward elimination instrumented with the spec's PivotState (spec §3):
identical to `elimLoop` except that it also records, in order, the column at
which each pivot was established.  `elimLoopP_proj` below proves it projects
to `elimLoop`. -/
def elimLoopP (n : Nat) :
    List (List Nat) → Nat → List Nat → Nat → Nat → List (List Nat) × Nat × List Nat
  | aug, p, pcs, _, 0 => (aug, p, pcs)
  | aug, p, pcs, col, k+1 =>
    match findPivotRow aug col p (n - p) with
    | none => elimLoopP n aug p pcs (col+1) k
    | some row =>
      elimLoopP n (elimRows p col (swapRows aug p row) 0 n) (p+1) (pcs ++ [col]) (col+1) k

/-- The columns that became pivot columns during forward elimination on the
system `(A, b)` (the spec's PivotState record), in the order they were
established. -/
def pivotCols (A : List (List Nat)) (b : List Nat) : List Nat :=
  let n := b.length
  let m := (A.getD 0 []).length
  let aug := List.zipWith (fun row bi => row ++ [bi]) A b
  (elimLoopP n aug 0 [] 0 m).2.2

/-- All lists of the given length with entries in `{0,1}` (used to decide,
by finite enumeration, that a small GF(2) system has no solution). -/
def bitVecs : Nat → List (List Nat)
  | 0 => [[]]
  | n+1 => (bitVecs n).flatMap (fun v => [0 :: v, 1 :: v])

/-- Matrix-vector product over GF(2) (the spec's reading of the linear
system: light equation `light` is the mod-2 sum of `A[light][button] *
x[button]`). -/
def matVecMod2 (A : List (List Nat)) (x : List Nat) : List Nat :=
  A.map (fun row => ((List.zipWith (· * ·) row x).foldl (· + ·) 0) % 2)

/-- The adjacency relation of claim C3, with `light` decoded as `(i, j)` and
`button` as `(i2, j2)`: the button cell equals the light cell or is one of
its 4-neighbours (in-bounds is automatic once both indices are below
`rows*cols`). -/
def togglesRel (i j i2 j2 : Nat) : Prop :=
  (i2 = i ∧ j2 = j) ∨ (i2 = i ∧ j = j2 + 1) ∨ (i2 = i ∧ j2 = j + 1) ∨
  (j2 = j ∧ i = i2 + 1) ∨ (j2 = j ∧ i2 = i + 1)

instance (i j i2 j2 : Nat) : Decidable (togglesRel i j i2 j2) := by
  unfold togglesRel; exact inferInstance

/-- The set of light rows that the loop body for button `(i, j)` writes a
`1` into (main.py lines 25-41): the button's own cell and each in-bounds
4-neighbour. -/
def pressWrites (rows cols i j l : Nat) : Prop :=
  l = i*cols+j ∨ (0 < i ∧ l = (i-1)*cols+j) ∨ (i < rows-1 ∧ l = (i+1)*cols+j) ∨
  (0 < j ∧ l = i*cols+(j-1)) ∨ (j < cols-1 ∧ l = i*cols+(j+1))

instance (rows cols i j l : Nat) : Decidable (pressWrites rows cols i j l) := by
  unfold pressWrites; exact inferInstance

/-- Index transposition describing the effect of `swapRows` on row indices. -/
def swapIdx (i j r : Nat) : Nat :=
  if r = j then i else if r = i then j else r

/-- Invariant of forward elimination after the columns `0, ..., c-1` have
been processed, with pivot counter `p` and recorded pivot columns `pcs`
(for an `n`-row, `m`-coefficient-column augmented matrix of width `m+1`):
the established pivot rows `0..p-1` each carry a leading `1` in their pivot
column, that column is zero in every other row, and the rows at and below
`p` are zero throughout the processed columns. -/
structure ElimInv (n m c : Nat) (aug : List (List Nat)) (p : Nat) (pcs : List Nat) : Prop where
  len : aug.length = n
  rlen : ∀ row ∈ aug, row.length = m + 1
  bits : ∀ row ∈ aug, ∀ v ∈ row, v ≤ 1
  pLe : p ≤ n
  plen : pcs.length = p
  pcolLt : ∀ q, q < p → pcs.getD q 0 < c
  pivotOne : ∀ q, q < p → E aug q (pcs.getD q 0) = 1
  pivotOnly : ∀ q, q < p → ∀ r, r ≠ q → E aug r (pcs.getD q 0) = 0
  leadZero : ∀ q, q < p → ∀ c', c' < pcs.getD q 0 → E aug q c' = 0
  belowZero : ∀ r, p ≤ r → ∀ c', c' < c → E aug r c' = 0

/-- The mutable stores of one `solve_lights_out` call: the input `board` and
the solver-owned arrays.  Every assignment in main.py lines 3-107 targets
`A`, `b`, `aug` or `x` (never `board`); `b = np.array([...])`,
`aug = np.column_stack([A.copy(), b.copy()])` and `x = np.zeros(m)` all
allocate fresh storage, so none of these stores aliases `board`. -/
structure SolveVars where
  board : List (List Nat)
  A : List (List Nat)
  b : List Nat
  aug : List (List Nat)
  x : List Nat

/-- State at entry of `solve_lights_out`: only the input board exists. -/
def initVars (board : List (List Nat)) : SolveVars :=
  ⟨board, [], [], [], []⟩

/-- `solve_lights_out` as an explicit state-passing program over its stores,
assignment by assignment in source order (matrix construction writes `A`,
line 44 writes `b` reading the current `board`, line 68 writes `aug`, the
elimination loop rewrites `aug`, back-substitution writes `x`).  The returned
state holds the final value of every store. -/
def solve_lights_out_st (s0 : SolveVars) : SolveVars × Option (List (List Nat)) :=
  let rows := s0.board.length
  let cols := (s0.board.getD 0 []).length
  let s1 := { s0 with A := buildA rows cols }
  let s2 := { s1 with b := flattenBoard s1.board }
  let s3 := { s2 with aug := List.zipWith (fun row bi => row ++ [bi]) s2.A s2.b }
  let res := elimLoop s3.b.length s3.aug 0 0 ((s3.A.getD 0 []).length)
  let s4 := { s3 with aug := res.1 }
  match backSub s4.aug ((s4.A.getD 0 []).length) (min res.2 s4.b.length)
      (List.replicate ((s4.A.getD 0 []).length) 0) with
  | none => (s4, none)
  | some xv => ({ s4 with x := xv }, some (reshape rows cols xv))


/-- Every length-`n` list of bits is enumerated by `bitVecs n`, so an `all`
check over `bitVecs n` decides a property of every bit vector of that
length. -/
theorem bitVecs_complete : ∀ (n : Nat) (v : List Nat),
    v.length = n → (∀ x ∈ v, x ≤ 1) → v ∈ bitVecs n := by
  intro n
  induction n with
  | zero =>
    intro v hv _
    rw [List.length_eq_zero] at hv
    simp [hv, bitVecs]
  | succ n ih =>
    intro v hv hb
    match v with
    | [] => simp at hv
    | a :: t =>
      have ht : t ∈ bitVecs n := by
        apply ih
        · simpa using hv
        · intro x hx; exact hb x (List.mem_cons_of_mem _ hx)
      have ha : a ≤ 1 := hb a (List.mem_cons_self _ _)
      simp only [bitVecs, List.mem_flatMap]
      refine ⟨t, ht, ?_⟩
      interval_cases a <;> simp

/-- C1 (code_bug evidence): the valid 1×5 board `[[1,0,0,0,0]]` makes
`solve_lights_out` return the grid `[[1,0,1,1,0]]`, yet replaying that grid
does not clear the board: `verify_solution` reports `False` (light `(0,4)`
stays on).  The round-trip property of the claim fails because the
inconsistency check of the elimination sits in a loop that never visits the
all-zero rows (main.py line 90 stops below `pivot_row`). -/
theorem c1_solve_returns_nonsolution_on_1x5 :
    solve_lights_out [[1,0,0,0,0]] = some [[1,0,1,1,0]] ∧
    (verify_solution [[1,0,0,0,0]] [[1,0,1,1,0]]).1 = false := by
  decide

/-- C2 (code_bug evidence): the GF(2) system of the 1×5 board
`[[1,0,0,0,0]]` has no solution — no press vector `x` over GF(2) satisfies
`A x = b`, checked over all 32 bit vectors (exhaustive by
`bitVecs_complete`; `matVecMod2` only reads the 5 in-range bits of `x`) —
yet `solve_lights_out` returns a (spurious) solution grid instead of the
no-solution signal `None`. -/
theorem c2_unsatisfiable_system_gets_spurious_solution :
    ((bitVecs 5).all
      (fun x => !(matVecMod2 (buildA 1 5) x == flattenBoard [[1,0,0,0,0]]))) = true ∧
    solve_lights_out [[1,0,0,0,0]] = some [[1,0,1,1,0]] := by
  decide

/-- C6 (counterexample): a malformed board — the single cell is `2`, not a
bit — is not rejected: `solve_lights_out` runs the normal path and returns
the normal result `[[2]]`.  main.py lines 14-19 perform no validation and no
InvalidInput signal exists anywhere in the code. -/
theorem c6_no_invalid_input_signal :
    solve_lights_out [[2]] = some [[2]] := by
  decide

/-- C6 (amended): `solve_lights_out` performs no input validation; malformed
boards flow through the normal solving path and produce normal results: the
non-binary board `[[2]]` yields `some [[2]]` and the non-rectangular board
`[[1],[0,1]]` yields `some [[1],[0]]`. -/
theorem c6_malformed_boards_processed_normally :
    solve_lights_out [[2]] = some [[2]] ∧
    solve_lights_out [[1],[0,1]] = some [[1],[0]] := by
  decide

/-- C8: `solve_lights_out` is deterministic — identical boards give
identical results (the embedding is a pure function of the board, as is the
Python code: no randomness, no ambient state). -/
theorem c8_solve_deterministic (B1 B2 : List (List Nat)) (h : B1 = B2) :
    solve_lights_out B1 = solve_lights_out B2 :=
  congrArg solve_lights_out h

/-- C8 witness: the theorem applied to two copies of a concrete board. -/
theorem c8_solve_deterministic_witness :
    solve_lights_out [[1,0],[0,0]] = solve_lights_out [[1,0],[0,0]] :=
  c8_solve_deterministic [[1,0],[0,0]] [[1,0],[0,0]] rfl

/-- C10 (counterexample): the `leading_col == -1` branch of back-substitution
(main.py lines 97-99, the only `return None` of the function) IS reachable
for some input matrix and vector: on `A = [[1,1],[3,1]]`, `b = [1,0]` the
entry `3` is never selected as a pivot (the code tests `== 1`), elimination
XORs row 0 to `[0,0,1]`, and back-substitution reaches the branch and
returns `None`.  In this embedding `none` arises only from that branch, so
the claim's "unreachable for every input" is refuted. -/
theorem c10_none_branch_reachable :
    gaussian_elimination_gf2 [[1,1],[3,1]] [1,0] = none := by
  decide

/-! List access helper lemmas. -/

theorem getD_of_length_le {α : Type} {l : List α} {i : Nat} (d : α) (h : l.length ≤ i) :
    l.getD i d = d := by
  rw [List.getD_eq_getElem?_getD, List.getElem?_eq_none h]
  rfl

theorem getD_set_self {α : Type} {l : List α} {i : Nat} (v d : α) (h : i < l.length) :
    (l.set i v).getD i d = v := by
  rw [List.getD_eq_getElem?_getD, List.getElem?_set_self h]
  rfl

theorem getD_set_ne {α : Type} {l : List α} {i j : Nat} (v d : α) (h : i ≠ j) :
    (l.set i v).getD j d = l.getD j d := by
  rw [List.getD_eq_getElem?_getD, List.getElem?_set_ne h, ← List.getD_eq_getElem?_getD]

theorem getD_replicate {α : Type} (n i : Nat) (a : α) :
    (List.replicate n a).getD i a = a := by
  rcases Nat.lt_or_ge i n with h | h
  · rw [List.getD_eq_getElem _ _ (by simpa using h), List.getElem_replicate]
  · exact getD_of_length_le a (by simpa using h)

theorem getD_mem {α : Type} {l : List α} {i : Nat} (d : α) (h : i < l.length) :
    l.getD i d ∈ l := by
  rw [List.getD_eq_getElem l d h]
  exact List.getElem_mem h

theorem mem_getD_exists {l : List (List Nat)} {row : List Nat} (h : row ∈ l) :
    ∃ j, j < l.length ∧ l.getD j [] = row := by
  rcases List.mem_iff_getElem.1 h with ⟨j, hj, hrow⟩
  exact ⟨j, hj, by rw [List.getD_eq_getElem _ _ hj, hrow]⟩

theorem set_replicate_self {α : Type} (a : α) : ∀ (n i : Nat),
    (List.replicate n a).set i a = List.replicate n a := by
  intro n
  induction n with
  | zero => intro i; rfl
  | succ n ih =>
    intro i
    cases i with
    | zero => simp [List.replicate_succ]
    | succ i => simp [List.replicate_succ, ih]

/-! Entry-level lemmas about `E`. -/

theorem E_row_oob {aug : List (List Nat)} {r : Nat} (c : Nat) (h : aug.length ≤ r) :
    E aug r c = 0 := by
  unfold E
  rw [getD_of_length_le _ h]
  rfl

theorem E_col_oob {aug : List (List Nat)} {r c : Nat} (h : (aug.getD r []).length ≤ c) :
    E aug r c = 0 :=
  getD_of_length_le _ h

theorem E_le_one {aug : List (List Nat)} (bits : ∀ row ∈ aug, ∀ v ∈ row, v ≤ 1)
    (r c : Nat) : E aug r c ≤ 1 := by
  unfold E
  rcases Nat.lt_or_ge r aug.length with hr | hr
  · rcases Nat.lt_or_ge c (aug.getD r []).length with hc | hc
    · exact bits _ (getD_mem [] hr) _ (getD_mem 0 hc)
    · rw [getD_of_length_le _ hc]
      omega
  · rw [getD_of_length_le _ hr]
    simp

theorem rowLen {aug : List (List Nat)} {w : Nat}
    (hr : ∀ row ∈ aug, row.length = w) {r : Nat} (h : r < aug.length) :
    (aug.getD r []).length = w :=
  hr _ (getD_mem [] h)

/-! Lemmas about `addRowsMod2`. -/

theorem length_addRowsMod2 (a b : List Nat) :
    (addRowsMod2 a b).length = min a.length b.length := by
  simp [addRowsMod2]

theorem getD_addRowsMod2 {a b : List Nat} {L : Nat} (ha : a.length = L) (hb : b.length = L)
    (c : Nat) : (addRowsMod2 a b).getD c 0 = (a.getD c 0 + b.getD c 0) % 2 := by
  rcases Nat.lt_or_ge c L with hc | hc
  · have h1 : c < (addRowsMod2 a b).length := by
      simp [length_addRowsMod2, ha, hb, hc]
    have ha' : c < a.length := by omega
    have hb' : c < b.length := by omega
    rw [List.getD_eq_getElem _ _ h1, List.getD_eq_getElem _ _ ha', List.getD_eq_getElem _ _ hb']
    simp [addRowsMod2]
  · rw [getD_of_length_le _ (by omega : a.length ≤ c),
      getD_of_length_le _ (by omega : b.length ≤ c),
      getD_of_length_le _ (by rw [length_addRowsMod2]; omega)]

theorem bits_addRowsMod2 (a b : List Nat) : ∀ v ∈ addRowsMod2 a b, v ≤ 1 := by
  intro v hv
  simp only [addRowsMod2, List.mem_map] at hv
  rcases hv with ⟨w, _, rfl⟩
  omega

/-! Lemmas about `swapRows`. -/

theorem length_swapRows (aug : List (List Nat)) (i j : Nat) :
    (swapRows aug i j).length = aug.length := by
  simp [swapRows]

theorem getD_swapRows {aug : List (List Nat)} {i j : Nat}
    (hi : i < aug.length) (hj : j < aug.length) (r : Nat) :
    (swapRows aug i j).getD r [] = aug.getD (swapIdx i j r) [] := by
  unfold swapRows swapIdx
  by_cases hrj : r = j
  · subst hrj
    rw [getD_set_self _ _ (by simpa [List.length_set] using hj)]
    simp
  · rw [getD_set_ne _ _ (fun h => hrj h.symm)]
    by_cases hri : r = i
    · subst hri
      rw [getD_set_self _ _ hi]
      simp [hrj]
    · rw [getD_set_ne _ _ (fun h => hri h.symm)]
      simp [hrj, hri]

theorem E_swapRows {aug : List (List Nat)} {i j : Nat}
    (hi : i < aug.length) (hj : j < aug.length) (r c : Nat) :
    E (swapRows aug i j) r c = E aug (swapIdx i j r) c := by
  unfold E
  rw [getD_swapRows hi hj]

theorem mem_swapRows {aug : List (List Nat)} {i j : Nat}
    (hi : i < aug.length) (hj : j < aug.length) {row : List Nat}
    (h : row ∈ swapRows aug i j) : row ∈ aug := by
  unfold swapRows at h
  rcases List.mem_or_eq_of_mem_set h with h' | h'
  · rcases List.mem_or_eq_of_mem_set h' with h'' | h''
    · exact h''
    · rw [h'']; exact getD_mem [] hj
  · rw [h']; exact getD_mem [] hi

/-! Lemmas about `elimRows`. -/

theorem length_elimRows (p col : Nat) : ∀ (k r : Nat) (aug : List (List Nat)),
    (elimRows p col aug r k).length = aug.length := by
  intro k
  induction k with
  | zero => intro r aug; rfl
  | succ k ih =>
    intro r aug
    show (elimRows p col _ (r+1) k).length = _
    rw [ih]
    split
    · rw [List.length_set]
    · rfl

theorem getD_elimRows (p col : Nat) : ∀ (k r : Nat) (aug : List (List Nat)) (j : Nat),
    (elimRows p col aug r k).getD j [] =
      if r ≤ j ∧ j < r + k ∧ j ≠ p ∧ E aug j col = 1
      then addRowsMod2 (aug.getD j []) (aug.getD p [])
      else aug.getD j [] := by
  intro k
  induction k with
  | zero =>
    intro r aug j
    rw [if_neg]
    · rfl
    · rintro ⟨h1, h2, -⟩; omega
  | succ k ih =>
    intro r aug j
    show (elimRows p col (if r ≠ p ∧ E aug r col = 1 then _ else aug) (r+1) k).getD j [] = _
    rw [ih]
    by_cases hjr : j = r
    · subst hjr
      rw [if_neg (by rintro ⟨h1, -⟩; omega)]
      by_cases hcond : j ≠ p ∧ E aug j col = 1
      · rw [if_pos hcond]
        rw [if_pos ⟨Nat.le_refl j, by omega, hcond.1, hcond.2⟩]
        have hjlen : j < aug.length := by
          by_contra hge
          have : E aug j col = 0 := E_row_oob col (by omega)
          omega
        exact getD_set_self _ _ hjlen
      · rw [if_neg hcond]
        rw [if_neg (by rintro ⟨-, -, h3, h4⟩; exact hcond ⟨h3, h4⟩)]
    · have hpD : (if r ≠ p ∧ E aug r col = 1
          then aug.set r (addRowsMod2 (aug.getD r []) (aug.getD p []))
          else aug).getD p [] = aug.getD p [] := by
        split
        · next hc => exact getD_set_ne _ _ hc.1
        · rfl
      have hjD : (if r ≠ p ∧ E aug r col = 1
          then aug.set r (addRowsMod2 (aug.getD r []) (aug.getD p []))
          else aug).getD j [] = aug.getD j [] := by
        split
        · exact getD_set_ne _ _ (fun h => hjr h.symm)
        · rfl
      have hjE : E (if r ≠ p ∧ E aug r col = 1
          then aug.set r (addRowsMod2 (aug.getD r []) (aug.getD p []))
          else aug) j col = E aug j col :=
        congrArg (fun l => l.getD col 0) hjD
      rw [hpD, hjD, hjE]
      by_cases hc : r ≤ j ∧ j < r + (k+1) ∧ j ≠ p ∧ E aug j col = 1
      · rw [if_pos ⟨by omega, by omega, hc.2.2⟩, if_pos hc]
      · rw [if_neg (by rintro ⟨h1, h2, h3, h4⟩; exact hc ⟨by omega, by omega, h3, h4⟩), if_neg hc]

theorem E_elimRows {n w : Nat} {aug : List (List Nat)} {p col : Nat}
    (hlen : aug.length = n) (hrlen : ∀ row ∈ aug, row.length = w) (hp : p < n)
    (j c : Nat) :
    E (elimRows p col aug 0 n) j c =
      if j < n ∧ j ≠ p ∧ E aug j col = 1
      then (E aug j c + E aug p c) % 2
      else E aug j c := by
  have hD := getD_elimRows p col n 0 aug j
  by_cases hcond : j < n ∧ j ≠ p ∧ E aug j col = 1
  · rw [if_pos hcond]
    have hrow : (elimRows p col aug 0 n).getD j [] =
        addRowsMod2 (aug.getD j []) (aug.getD p []) := by
      rw [hD, if_pos ⟨Nat.zero_le j, by omega, hcond.2.1, hcond.2.2⟩]
    have h1 : E (elimRows p col aug 0 n) j c =
        (addRowsMod2 (aug.getD j []) (aug.getD p [])).getD c 0 :=
      congrArg (fun l => l.getD c 0) hrow
    rw [h1, getD_addRowsMod2 (rowLen hrlen (by omega)) (rowLen hrlen (by omega)) c]
    rfl
  · rw [if_neg hcond]
    have hrow : (elimRows p col aug 0 n).getD j [] = aug.getD j [] := by
      rw [hD, if_neg (by rintro ⟨-, h2, h3, h4⟩; exact hcond ⟨by omega, h3, h4⟩)]
    exact congrArg (fun l => l.getD c 0) hrow

theorem rlen_elimRows {aug : List (List Nat)} {p col k r w : Nat}
    (hrlen : ∀ row ∈ aug, row.length = w) (hp : p < aug.length) :
    ∀ row ∈ elimRows p col aug r k, row.length = w := by
  intro row hrow
  rcases mem_getD_exists hrow with ⟨j, hj, hD⟩
  rw [length_elimRows] at hj
  rw [getD_elimRows] at hD
  split at hD
  · rw [← hD, length_addRowsMod2, rowLen hrlen hj, rowLen hrlen hp]
    omega
  · rw [← hD]
    exact rowLen hrlen hj

theorem bits_elimRows {aug : List (List Nat)} {p col k r : Nat}
    (hbits : ∀ row ∈ aug, ∀ v ∈ row, v ≤ 1) :
    ∀ row ∈ elimRows p col aug r k, ∀ v ∈ row, v ≤ 1 := by
  intro row hrow
  rcases mem_getD_exists hrow with ⟨j, hj, hD⟩
  rw [length_elimRows] at hj
  rw [getD_elimRows] at hD
  split at hD
  · rw [← hD]
    exact bits_addRowsMod2 _ _
  · rw [← hD]
    exact hbits _ (getD_mem [] hj)

/-! Lemmas about `findPivotRow`. -/

theorem findPivotRow_none {aug : List (List Nat)} {col : Nat} :
    ∀ (k r : Nat), findPivotRow aug col r k = none →
      ∀ r', r ≤ r' → r' < r + k → E aug r' col ≠ 1 := by
  intro k
  induction k with
  | zero => intro r _ r' h1 h2; omega
  | succ k ih =>
    intro r hnone r' h1 h2
    rw [findPivotRow] at hnone
    split at hnone
    · exact absurd hnone (by simp)
    · next hne =>
      rcases Nat.eq_or_lt_of_le h1 with rfl | hlt
      · exact hne
      · exact ih (r+1) hnone r' hlt (by omega)

theorem findPivotRow_some {aug : List (List Nat)} {col : Nat} :
    ∀ (k r q : Nat), findPivotRow aug col r k = some q →
      r ≤ q ∧ q < r + k ∧ E aug q col = 1 := by
  intro k
  induction k with
  | zero => intro r q h; exact absurd h (by simp [findPivotRow])
  | succ k ih =>
    intro r q h
    rw [findPivotRow] at h
    split at h
    · next he =>
      cases h
      exact ⟨Nat.le_refl r, by omega, he⟩
    · rcases ih (r+1) q h with ⟨h1, h2, h3⟩
      exact ⟨by omega, by omega, h3⟩

/-! Preservation of the elimination invariant, one column step. -/

theorem elim_step_none {n m c : Nat} {aug : List (List Nat)} {p : Nat} {pcs : List Nat}
    (h : ElimInv n m c aug p pcs)
    (hnone : findPivotRow aug c p (n - p) = none) : ElimInv n m (c+1) aug p pcs := by
  obtain ⟨hlen, hrlen, hbits, hpLe, hplen, hpcolLt, hpivotOne, hpivotOnly, hleadZero,
    hbelowZero⟩ := h
  refine ⟨hlen, hrlen, hbits, hpLe, hplen, fun q hq => by have := hpcolLt q hq; omega,
    hpivotOne, hpivotOnly, hleadZero, ?_⟩
  intro r hr c' hc'
  rcases Nat.lt_or_ge c' c with hlt | hge
  · exact hbelowZero r hr c' hlt
  · have hcc : c' = c := by omega
    subst hcc
    rcases Nat.lt_or_ge r n with hrn | hrn
    · have hne := findPivotRow_none _ _ hnone r hr (by omega)
      have hle := E_le_one hbits r c'
      omega
    · exact E_row_oob c' (by omega)

theorem elim_step_some {n m c : Nat} {aug : List (List Nat)} {p : Nat} {pcs : List Nat}
    (h : ElimInv n m c aug p pcs) {q : Nat}
    (hq : findPivotRow aug c p (n - p) = some q) :
    ElimInv n m (c+1) (elimRows p c (swapRows aug p q) 0 n) (p+1) (pcs ++ [c]) := by
  obtain ⟨hlen, hrlen, hbits, hpLe, hplen, hpcolLt, hpivotOne, hpivotOnly, hleadZero,
    hbelowZero⟩ := h
  obtain ⟨hpq, hqlt', hqE⟩ := findPivotRow_some _ _ _ hq
  have hqn : q < n := by omega
  have hpn : p < n := by omega
  have hplt : p < aug.length := by omega
  have hqlt : q < aug.length := by omega
  have hswlen : (swapRows aug p q).length = n := by rw [length_swapRows]; exact hlen
  have hswrlen : ∀ row ∈ swapRows aug p q, row.length = m + 1 :=
    fun row hr => hrlen _ (mem_swapRows hplt hqlt hr)
  have hswbits : ∀ row ∈ swapRows aug p q, ∀ v ∈ row, v ≤ 1 :=
    fun row hr => hbits _ (mem_swapRows hplt hqlt hr)
  have hswE : ∀ r c', E (swapRows aug p q) r c' = E aug (swapIdx p q r) c' :=
    fun r c' => E_swapRows hplt hqlt r c'
  have hswEp : ∀ c', E (swapRows aug p q) p c' = E aug q c' := by
    intro c'
    rw [hswE]
    have : swapIdx p q p = q := by unfold swapIdx; split_ifs <;> omega
    rw [this]
  have hswElow : ∀ r, r < p → ∀ c', E (swapRows aug p q) r c' = E aug r c' := by
    intro r hr c'
    rw [hswE]
    have : swapIdx p q r = r := by unfold swapIdx; split_ifs <;> omega
    rw [this]
  have hswBelow : ∀ r, p ≤ r → ∀ c', c' < c → E (swapRows aug p q) r c' = 0 := by
    intro r hr c' hc'
    rw [hswE]
    refine hbelowZero _ ?_ _ hc'
    unfold swapIdx; split_ifs <;> omega
  have hswPivotOne : ∀ q', q' < p → E (swapRows aug p q) q' (pcs.getD q' 0) = 1 := by
    intro q' hq'
    rw [hswElow q' hq']
    exact hpivotOne q' hq'
  have hswPivotOnly : ∀ q', q' < p → ∀ r, r ≠ q' →
      E (swapRows aug p q) r (pcs.getD q' 0) = 0 := by
    intro q' hq' r hr
    rw [hswE]
    refine hpivotOnly q' hq' _ ?_
    unfold swapIdx; split_ifs <;> omega
  have hswLeadZero : ∀ q', q' < p → ∀ c', c' < pcs.getD q' 0 →
      E (swapRows aug p q) q' c' = 0 := by
    intro q' hq' c' hc'
    rw [hswElow q' hq']
    exact hleadZero q' hq' c' hc'
  have hswEq : E (swapRows aug p q) p c = 1 := by rw [hswEp]; exact hqE
  have hE : ∀ j c', E (elimRows p c (swapRows aug p q) 0 n) j c' =
      if j < n ∧ j ≠ p ∧ E (swapRows aug p q) j c = 1
      then (E (swapRows aug p q) j c' + E (swapRows aug p q) p c') % 2
      else E (swapRows aug p q) j c' :=
    fun j c' => E_elimRows hswlen hswrlen hpn j c'
  have hgetL : ∀ q', q' < p → (pcs ++ [c]).getD q' 0 = pcs.getD q' 0 := by
    intro q' hq'
    exact List.getD_append _ _ _ _ (by omega)
  have hgetR : (pcs ++ [c]).getD p 0 = c := by
    rw [List.getD_append_right _ _ _ _ (by omega), hplen]
    simp
  refine ⟨?_, ?_, ?_, by omega, by simp [hplen], ?_, ?_, ?_, ?_, ?_⟩
  · rw [length_elimRows, length_swapRows]; exact hlen
  · exact rlen_elimRows hswrlen (by omega)
  · exact bits_elimRows hswbits
  · -- pcolLt
    intro q' hq'
    rcases Nat.lt_or_ge q' p with h' | h'
    · rw [hgetL q' h']
      have := hpcolLt q' h'
      omega
    · have hqp : q' = p := by omega
      rw [hqp, hgetR]
      omega
  · -- pivotOne
    intro q' hq'
    rcases Nat.lt_or_ge q' p with h' | h'
    · rw [hgetL q' h', hE]
      by_cases hmod : q' < n ∧ q' ≠ p ∧ E (swapRows aug p q) q' c = 1
      · rw [if_pos hmod, hswPivotOne q' h', hswEp, hpivotOnly q' h' q (by omega)]
      · rw [if_neg hmod]
        exact hswPivotOne q' h'
    · have hqp : q' = p := by omega
      rw [hqp, hgetR, hE, if_neg (by rintro ⟨-, hne, -⟩; exact hne rfl)]
      exact hswEq
  · -- pivotOnly
    intro q' hq' r hr
    rcases Nat.lt_or_ge q' p with h' | h'
    · rw [hgetL q' h', hE]
      by_cases hmod : r < n ∧ r ≠ p ∧ E (swapRows aug p q) r c = 1
      · rw [if_pos hmod, hswPivotOnly q' h' r hr, hswEp, hpivotOnly q' h' q (by omega)]
      · rw [if_neg hmod]
        exact hswPivotOnly q' h' r hr
    · have hqp : q' = p := by omega
      have hrp : r ≠ p := by rw [hqp] at hr; exact hr
      rw [hqp, hgetR, hE]
      by_cases hmod : r < n ∧ r ≠ p ∧ E (swapRows aug p q) r c = 1
      · rw [if_pos hmod, hmod.2.2, hswEq]
      · rw [if_neg hmod]
        rcases Nat.lt_or_ge r n with hrn | hrn
        · have h1 := E_le_one hswbits r c
          have h2 : ¬ E (swapRows aug p q) r c = 1 := fun he => hmod ⟨hrn, hrp, he⟩
          omega
        · exact E_row_oob c (by omega)
  · -- leadZero
    intro q' hq' c' hc'
    rcases Nat.lt_or_ge q' p with h' | h'
    · rw [hgetL q' h'] at hc'
      rw [hE]
      by_cases hmod : q' < n ∧ q' ≠ p ∧ E (swapRows aug p q) q' c = 1
      · rw [if_pos hmod, hswLeadZero q' h' c' hc', hswEp]
        rw [hbelowZero q (by omega) c' (by have := hpcolLt q' h'; omega)]
      · rw [if_neg hmod]
        exact hswLeadZero q' h' c' hc'
    · have hqp : q' = p := by omega
      rw [hqp, hgetR] at hc'
      rw [hqp, hE, if_neg (by rintro ⟨-, hne, -⟩; exact hne rfl)]
      exact hswBelow p (Nat.le_refl p) c' hc'
  · -- belowZero
    intro r hr c' hc'
    have hrp : r ≠ p := by omega
    rcases Nat.lt_or_ge c' c with hlt | hge
    · rw [hE]
      by_cases hmod : r < n ∧ r ≠ p ∧ E (swapRows aug p q) r c = 1
      · rw [if_pos hmod, hswBelow r (by omega) c' hlt, hswBelow p (Nat.le_refl p) c' hlt]
      · rw [if_neg hmod]
        exact hswBelow r (by omega) c' hlt
    · have hcc : c' = c := by omega
      rw [hcc, hE]
      by_cases hmod : r < n ∧ r ≠ p ∧ E (swapRows aug p q) r c = 1
      · rw [if_pos hmod, hmod.2.2, hswEq]
      · rw [if_neg hmod]
        rcases Nat.lt_or_ge r n with hrn | hrn
        · have h1 := E_le_one hswbits r c
          have h2 : ¬ E (swapRows aug p q) r c = 1 := fun he => hmod ⟨hrn, hrp, he⟩
          omega
        · exact E_row_oob c (by omega)

theorem elimLoopP_inv {n m : Nat} : ∀ (k c : Nat) (aug : List (List Nat)) (p : Nat)
    (pcs : List Nat), ElimInv n m c aug p pcs →
    ElimInv n m (c+k) (elimLoopP n aug p pcs c k).1
      (elimLoopP n aug p pcs c k).2.1 (elimLoopP n aug p pcs c k).2.2 := by
  intro k
  induction k with
  | zero => intro c aug p pcs h; simpa [elimLoopP] using h
  | succ k ih =>
    intro c aug p pcs h
    have hadd : c + (k+1) = (c+1) + k := by omega
    rw [hadd]
    rcases hfp : findPivotRow aug c p (n - p) with _ | q
    · have h' := elim_step_none h hfp
      have := ih (c+1) aug p pcs h'
      simpa [elimLoopP, hfp] using this
    · have h' := elim_step_some h hfp
      have := ih (c+1) _ (p+1) (pcs ++ [c]) h'
      simpa [elimLoopP, hfp] using this

theorem elimLoopP_proj (n : Nat) : ∀ (k c : Nat) (aug : List (List Nat)) (p : Nat)
    (pcs : List Nat),
    (elimLoopP n aug p pcs c k).1 = (elimLoop n aug p c k).1 ∧
    (elimLoopP n aug p pcs c k).2.1 = (elimLoop n aug p c k).2 := by
  intro k
  induction k with
  | zero => intro c aug p pcs; exact ⟨rfl, rfl⟩
  | succ k ih =>
    intro c aug p pcs
    rcases hfp : findPivotRow aug c p (n - p) with _ | q
    · simpa [elimLoopP, elimLoop, hfp] using ih (c+1) aug p pcs
    · simpa [elimLoopP, elimLoop, hfp] using ih (c+1) _ (p+1) (pcs ++ [c])

/-! Lemmas about `findLead`, `valLoop` and `backSub`. -/

theorem findLead_eq_some {row : List Nat} : ∀ (k c lc : Nat),
    c ≤ lc → lc < c + k → row.getD lc 0 = 1 →
    (∀ c', c ≤ c' → c' < lc → row.getD c' 0 ≠ 1) →
    findLead row c k = some lc := by
  intro k
  induction k with
  | zero => intro c lc h1 h2 _ _; omega
  | succ k ih =>
    intro c lc h1 h2 hlc hbefore
    rw [findLead]
    by_cases hc : row.getD c 0 = 1
    · have hceq : c = lc := by
        by_contra hne
        exact hbefore c (Nat.le_refl c) (by omega) hc
      rw [if_pos hc, hceq]
    · rw [if_neg hc]
      have h1' : c + 1 ≤ lc := by
        rcases Nat.eq_or_lt_of_le h1 with rfl | h
        · exact absurd hlc hc
        · omega
      exact ih (c+1) lc h1' (by omega) hlc (fun c' ha hb => hbefore c' (by omega) hb)

theorem valLoop_le_one (row x : List Nat) : ∀ (k c v : Nat), v ≤ 1 →
    valLoop row x v c k ≤ 1 := by
  intro k
  induction k with
  | zero => intro c v hv; simpa [valLoop] using hv
  | succ k ih =>
    intro c v hv
    rw [valLoop]
    exact ih (c+1) _ (by omega)

theorem backSub_some {n m : Nat} {aug : List (List Nat)} {p : Nat} {pcs : List Nat}
    (h : ElimInv n m m aug p pcs) :
    ∀ (r : Nat), r ≤ p → ∀ (x : List Nat), x.length = m → (∀ v ∈ x, v ≤ 1) →
      (∀ cc, cc ∉ pcs → x.getD cc 0 = 0) →
      ∃ y, backSub aug m r x = some y ∧ y.length = m ∧ (∀ v ∈ y, v ≤ 1) ∧
        (∀ cc, cc ∉ pcs → y.getD cc 0 = 0) := by
  intro r
  induction r with
  | zero =>
    intro _ x hx hbx hzx
    exact ⟨x, rfl, hx, hbx, hzx⟩
  | succ r ih =>
    intro hr x hx hbx hzx
    have hrp : r < p := by omega
    have hrn : r < n := by have := h.pLe; omega
    have hlcm : pcs.getD r 0 < m := h.pcolLt r hrp
    have hlead : findLead (aug.getD r []) 0 m = some (pcs.getD r 0) := by
      apply findLead_eq_some m 0 (pcs.getD r 0) (Nat.zero_le _) (by omega)
      · exact h.pivotOne r hrp
      · intro c' _ hclt
        have hz : (aug.getD r []).getD c' 0 = 0 := h.leadZero r hrp c' hclt
        omega
    have hrowlen : (aug.getD r []).length = m + 1 := rowLen h.rlen (by rw [h.len]; omega)
    have hstart : (aug.getD r []).getD m 0 ≤ 1 :=
      h.bits _ (getD_mem [] (by rw [h.len]; omega)) _ (getD_mem 0 (by omega))
    have hval : valLoop (aug.getD r []) x ((aug.getD r []).getD m 0)
        (pcs.getD r 0 + 1) (m - (pcs.getD r 0 + 1)) ≤ 1 :=
      valLoop_le_one _ _ _ _ _ hstart
    have hlcmem : pcs.getD r 0 ∈ pcs := getD_mem 0 (by rw [h.plen]; omega)
    rw [backSub, hlead]
    apply ih (by omega)
    · rw [List.length_set]; exact hx
    · intro v hv
      rcases List.mem_or_eq_of_mem_set hv with h' | h'
      · exact hbx v h'
      · rw [h']; exact hval
    · intro cc hcc
      have hne : pcs.getD r 0 ≠ cc := fun he => hcc (he ▸ hlcmem)
      rw [getD_set_ne _ _ hne]
      exact hzx cc hcc

/-- On GF(2) inputs the full forward elimination establishes `ElimInv` with
all columns processed. -/
theorem elim_final_inv {A : List (List Nat)} {b : List Nat}
    (hlen : A.length = b.length)
    (hrlen : ∀ row ∈ A, row.length = (A.getD 0 []).length)
    (hbitsA : ∀ row ∈ A, ∀ v ∈ row, v ≤ 1)
    (hbitsb : ∀ v ∈ b, v ≤ 1) :
    ElimInv b.length ((A.getD 0 []).length) ((A.getD 0 []).length)
      (elimLoopP b.length (List.zipWith (fun row bi => row ++ [bi]) A b) 0 [] 0
        ((A.getD 0 []).length)).1
      (elimLoopP b.length (List.zipWith (fun row bi => row ++ [bi]) A b) 0 [] 0
        ((A.getD 0 []).length)).2.1
      (elimLoopP b.length (List.zipWith (fun row bi => row ++ [bi]) A b) 0 [] 0
        ((A.getD 0 []).length)).2.2 := by
  have hlen0 : (List.zipWith (fun row bi => row ++ [bi]) A b).length = b.length := by
    rw [List.length_zipWith]
    omega
  have hget0 : ∀ r, r < b.length →
      (List.zipWith (fun row bi => row ++ [bi]) A b).getD r [] =
        (A.getD r []) ++ [b.getD r 0] := by
    intro r hr
    have hrA : r < A.length := by omega
    rw [List.getD_eq_getElem _ _ (by rw [hlen0]; exact hr), List.getElem_zipWith,
      List.getD_eq_getElem _ _ hrA, List.getD_eq_getElem _ _ hr]
  have hrlen0 : ∀ row ∈ List.zipWith (fun row bi => row ++ [bi]) A b,
      row.length = (A.getD 0 []).length + 1 := by
    intro row hrow
    rcases mem_getD_exists hrow with ⟨r, hr, hD⟩
    rw [hlen0] at hr
    rw [← hD, hget0 r hr, List.length_append,
      rowLen hrlen (show r < A.length by omega)]
    rfl
  have hbits0 : ∀ row ∈ List.zipWith (fun row bi => row ++ [bi]) A b,
      ∀ v ∈ row, v ≤ 1 := by
    intro row hrow v hv
    rcases mem_getD_exists hrow with ⟨r, hr, hD⟩
    rw [hlen0] at hr
    rw [← hD, hget0 r hr] at hv
    rcases List.mem_append.1 hv with h' | h'
    · exact hbitsA _ (getD_mem [] (by omega)) v h'
    · rw [List.mem_singleton.1 h']
      exact hbitsb _ (getD_mem 0 hr)
  have hinv0 : ElimInv b.length ((A.getD 0 []).length) 0
      (List.zipWith (fun row bi => row ++ [bi]) A b) 0 [] :=
    ⟨hlen0, hrlen0, hbits0, Nat.zero_le _, rfl,
      fun q hq => absurd hq (Nat.not_lt_zero q),
      fun q hq => absurd hq (Nat.not_lt_zero q),
      fun q hq => absurd hq (Nat.not_lt_zero q),
      fun q hq => absurd hq (Nat.not_lt_zero q),
      fun r _ c' hc' => absurd hc' (Nat.not_lt_zero c')⟩
  have hinv := elimLoopP_inv ((A.getD 0 []).length) 0
    (List.zipWith (fun row bi => row ++ [bi]) A b) 0 [] hinv0
  rw [Nat.zero_add] at hinv
  exact hinv

/-- Master lemma about `gaussian_elimination_gf2` on genuine GF(2) inputs
(all entries bits, rows of `A` of equal length `m`, `A` and `b` of equal
height): elimination and back-substitution always succeed, and the returned
vector has length `m`, bit entries, and zeros at every non-pivot column. -/
theorem gaussian_master {A : List (List Nat)} {b : List Nat}
    (hlen : A.length = b.length)
    (hrlen : ∀ row ∈ A, row.length = (A.getD 0 []).length)
    (hbitsA : ∀ row ∈ A, ∀ v ∈ row, v ≤ 1)
    (hbitsb : ∀ v ∈ b, v ≤ 1) :
    ∃ x, gaussian_elimination_gf2 A b = some x ∧
      x.length = (A.getD 0 []).length ∧ (∀ v ∈ x, v ≤ 1) ∧
      (∀ cc, cc ∉ pivotCols A b → x.getD cc 0 = 0) := by
  have hinv := elim_final_inv hlen hrlen hbitsA hbitsb
  have hproj := elimLoopP_proj b.length ((A.getD 0 []).length) 0
    (List.zipWith (fun row bi => row ++ [bi]) A b) 0 []
  obtain ⟨y, hy, hylen, hybits, hyzero⟩ := backSub_some hinv
    (elimLoopP b.length (List.zipWith (fun row bi => row ++ [bi]) A b) 0 [] 0
      ((A.getD 0 []).length)).2.1 (Nat.le_refl _)
    (List.replicate ((A.getD 0 []).length) 0) (by simp)
    (by intro v hv; rw [List.eq_of_mem_replicate hv]; omega)
    (by intro cc _; exact getD_replicate _ cc 0)
  refine ⟨y, ?_, hylen, hybits, hyzero⟩
  show backSub (elimLoop b.length (List.zipWith (fun row bi => row ++ [bi]) A b) 0 0
      ((A.getD 0 []).length)).1 ((A.getD 0 []).length)
    (min (elimLoop b.length (List.zipWith (fun row bi => row ++ [bi]) A b) 0 0
      ((A.getD 0 []).length)).2 b.length)
    (List.replicate ((A.getD 0 []).length) 0) = some y
  rw [← hproj.1, ← hproj.2, Nat.min_eq_left hinv.pLe]
  exact hy

/-- C4: whenever `gaussian_elimination_gf2` returns a solution vector `x`
for a GF(2) system (bit entries, rows of `A` of equal length, as produced by
the matrix builder), every column that never became a pivot during forward
elimination (a free variable, `cc ∉ pivotCols A b`) satisfies `x[cc] = 0`:
back-substitution only writes the leading column of each pivot row, which is
exactly that row's pivot column, so free variables keep the `0` they were
initialised with. -/
theorem c4_free_variables_zero {A : List (List Nat)} {b : List Nat}
    (hlen : A.length = b.length)
    (hrlen : ∀ row ∈ A, row.length = (A.getD 0 []).length)
    (hbitsA : ∀ row ∈ A, ∀ v ∈ row, v ≤ 1)
    (hbitsb : ∀ v ∈ b, v ≤ 1)
    {x : List Nat} (hx : gaussian_elimination_gf2 A b = some x)
    {cc : Nat} (hcc : cc ∉ pivotCols A b) :
    x.getD cc 0 = 0 := by
  obtain ⟨y, hy, -, -, hz⟩ := gaussian_master hlen hrlen hbitsA hbitsb
  rw [hy] at hx
  rw [← Option.some.inj hx]
  exact hz cc hcc

/-- C4 witness: for the 1×2 board system (`A = [[1,1],[1,1]]`, `b = [1,1]`)
only column 0 becomes a pivot, column 1 is free, and the returned solution
`[1,0]` has `x[1] = 0`. -/
theorem c4_free_variables_zero_witness :
    gaussian_elimination_gf2 [[1,1],[1,1]] [1,1] = some [1,0] ∧
    1 ∉ pivotCols [[1,1],[1,1]] [1,1] ∧ ([1,0] : List Nat).getD 1 0 = 0 :=
  ⟨by decide, by decide,
    @c4_free_variables_zero [[1,1],[1,1]] [1,1] (by decide) (by decide) (by decide)
      (by decide) [1,0] (by decide) 1 (by decide)⟩

/-- C10 (amended): for every input matrix and vector over GF(2) proper (all
entries bits, rows of `A` of one length, heights equal), every row processed
by the back-substitution loop (index below `min pivot_row n`) retains a `1`
in some coefficient column after forward elimination (its leading-column
search succeeds), and hence the internal Unsatisfiable branch is never taken:
`gaussian_elimination_gf2` returns `some`. -/
theorem c10_amended_branch_unreachable_on_bits {A : List (List Nat)} {b : List Nat}
    (hlen : A.length = b.length)
    (hrlen : ∀ row ∈ A, row.length = (A.getD 0 []).length)
    (hbitsA : ∀ row ∈ A, ∀ v ∈ row, v ≤ 1)
    (hbitsb : ∀ v ∈ b, v ≤ 1) (r : Nat)
    (hr : r < min (elimLoop b.length (List.zipWith (fun row bi => row ++ [bi]) A b) 0 0
        ((A.getD 0 []).length)).2 b.length) :
    (findLead ((elimLoop b.length (List.zipWith (fun row bi => row ++ [bi]) A b) 0 0
        ((A.getD 0 []).length)).1.getD r []) 0 ((A.getD 0 []).length)).isSome = true ∧
    (gaussian_elimination_gf2 A b).isSome = true := by
  have hinv := elim_final_inv hlen hrlen hbitsA hbitsb
  have hproj := elimLoopP_proj b.length ((A.getD 0 []).length) 0
    (List.zipWith (fun row bi => row ++ [bi]) A b) 0 []
  constructor
  · rw [← hproj.1]
    have hrp : r < (elimLoopP b.length (List.zipWith (fun row bi => row ++ [bi]) A b)
        0 [] 0 ((A.getD 0 []).length)).2.1 := by
      rw [← hproj.2] at hr
      omega
    have hlead := findLead_eq_some ((A.getD 0 []).length) 0
      ((elimLoopP b.length (List.zipWith (fun row bi => row ++ [bi]) A b) 0 [] 0
        ((A.getD 0 []).length)).2.2.getD r 0)
      (Nat.zero_le _) (by have := hinv.pcolLt r hrp; omega)
      (hinv.pivotOne r hrp)
      (by
        intro c' _ hclt
        have hz : ((elimLoopP b.length (List.zipWith (fun row bi => row ++ [bi]) A b)
            0 [] 0 ((A.getD 0 []).length)).1.getD r []).getD c' 0 = 0 :=
          hinv.leadZero r hrp c' hclt
        omega)
    rw [hlead]
    rfl
  · obtain ⟨x, hx, -⟩ := gaussian_master hlen hrlen hbitsA hbitsb
    rw [hx]
    rfl

/-- C10 amended witness: concrete GF(2) system `A = [[1,1],[1,1]]`,
`b = [1,0]` (rank 1), instantiated at processed row `r = 0`. -/
theorem c10_amended_witness :
    (findLead ((elimLoop 2 (List.zipWith (fun row bi => row ++ [bi]) [[1,1],[1,1]] [1,0])
        0 0 2).1.getD 0 []) 0 2).isSome = true ∧
    (gaussian_elimination_gf2 [[1,1],[1,1]] [1,0]).isSome = true :=
  @c10_amended_branch_unreachable_on_bits [[1,1],[1,1]] [1,0] (by decide) (by decide)
    (by decide) (by decide) 0 (by decide)

/-! Shape and bit lemmas for `buildA` and `flattenBoard`. -/

theorem foldl_preserve {α : Type} (P : List (List Nat) → Prop)
    (f : List (List Nat) → α → List (List Nat))
    (hf : ∀ A a, P A → P (f A a)) :
    ∀ (l : List α) (A), P A → P (List.foldl f A l) := by
  intro l
  induction l with
  | nil => intro A h; exact h
  | cons a l ih => intro A h; exact ih _ (hf A a h)

theorem setE_preserve {L w : Nat} {A : List (List Nat)} (r c : Nat)
    (h : A.length = L ∧ (∀ row ∈ A, row.length = w) ∧ (∀ row ∈ A, ∀ v ∈ row, v ≤ 1)) :
    (setE A r c 1).length = L ∧ (∀ row ∈ setE A r c 1, row.length = w) ∧
    (∀ row ∈ setE A r c 1, ∀ v ∈ row, v ≤ 1) := by
  obtain ⟨hL, hw, hb⟩ := h
  rcases Nat.lt_or_ge r A.length with hr | hr
  · refine ⟨by rw [setE, List.length_set]; exact hL, ?_, ?_⟩
    · intro row hrow
      rcases List.mem_or_eq_of_mem_set hrow with h' | h'
      · exact hw _ h'
      · rw [h', List.length_set]
        exact hw _ (getD_mem [] hr)
    · intro row hrow v hv
      rcases List.mem_or_eq_of_mem_set hrow with h' | h'
      · exact hb _ h' v hv
      · rw [h'] at hv
        rcases List.mem_or_eq_of_mem_set hv with h'' | h''
        · exact hb _ (getD_mem [] hr) v h''
        · rw [h'']
  · rw [setE, List.set_eq_of_length_le (by omega)]
    exact ⟨hL, hw, hb⟩

theorem condSetE_preserve {L w : Nat} {X : List (List Nat)} (c : Prop) [Decidable c]
    (r cc : Nat)
    (hX : X.length = L ∧ (∀ row ∈ X, row.length = w) ∧ (∀ row ∈ X, ∀ v ∈ row, v ≤ 1)) :
    (if c then setE X r cc 1 else X).length = L ∧
    (∀ row ∈ (if c then setE X r cc 1 else X), row.length = w) ∧
    (∀ row ∈ (if c then setE X r cc 1 else X), ∀ v ∈ row, v ≤ 1) := by
  split
  · exact setE_preserve r cc hX
  · exact hX

theorem pressStep_preserve {L w rows cols i j : Nat} {A : List (List Nat)}
    (h : A.length = L ∧ (∀ row ∈ A, row.length = w) ∧ (∀ row ∈ A, ∀ v ∈ row, v ≤ 1)) :
    (pressStep rows cols i j A).length = L ∧
    (∀ row ∈ pressStep rows cols i j A, row.length = w) ∧
    (∀ row ∈ pressStep rows cols i j A, ∀ v ∈ row, v ≤ 1) :=
  condSetE_preserve _ _ _ (condSetE_preserve _ _ _ (condSetE_preserve _ _ _
    (condSetE_preserve _ _ _ (setE_preserve _ _ h))))

theorem buildA_ok (rows cols : Nat) :
    (buildA rows cols).length = rows*cols ∧
    (∀ row ∈ buildA rows cols, row.length = rows*cols) ∧
    (∀ row ∈ buildA rows cols, ∀ v ∈ row, v ≤ 1) := by
  unfold buildA
  refine foldl_preserve
    (fun X => X.length = rows*cols ∧ (∀ row ∈ X, row.length = rows*cols) ∧
      (∀ row ∈ X, ∀ v ∈ row, v ≤ 1)) _ ?_ _ _ ⟨by simp, ?_, ?_⟩
  · intro A i hA
    exact foldl_preserve
      (fun X => X.length = rows*cols ∧ (∀ row ∈ X, row.length = rows*cols) ∧
        (∀ row ∈ X, ∀ v ∈ row, v ≤ 1))
      (fun X j => pressStep rows cols i j X)
      (fun X j hX => pressStep_preserve hX) _ _ hA
  · intro row hrow
    rw [List.eq_of_mem_replicate hrow]
    simp
  · intro row hrow v hv
    rw [List.eq_of_mem_replicate hrow] at hv
    rw [List.eq_of_mem_replicate hv]
    omega

theorem sum_map_const (c : Nat) : ∀ (r : Nat), ((List.range r).map (fun _ => c)).sum = r * c := by
  intro r
  induction r with
  | zero => simp
  | succ r ih =>
    rw [List.range_succ, List.map_append, List.sum_append, ih, Nat.succ_mul]
    simp

theorem length_flattenBoard (board : List (List Nat)) :
    (flattenBoard board).length = board.length * (board.getD 0 []).length := by
  unfold flattenBoard
  rw [List.length_flatten, List.map_map]
  have h : List.map (List.length ∘ fun i =>
        (List.range ((board.getD 0 []).length)).map (fun j => (board.getD i []).getD j 0))
      (List.range board.length) =
      (List.range board.length).map (fun _ => (board.getD 0 []).length) := by
    apply List.map_congr_left
    intro a _
    simp
  rw [h, sum_map_const]

theorem bits_flattenBoard {board : List (List Nat)}
    (hb : ∀ row ∈ board, ∀ v ∈ row, v ≤ 1) :
    ∀ v ∈ flattenBoard board, v ≤ 1 := by
  intro v hv
  unfold flattenBoard at hv
  rw [List.mem_flatten] at hv
  obtain ⟨l, hl, hvl⟩ := hv
  rw [List.mem_map] at hl
  obtain ⟨i, hi, rfl⟩ := hl
  rw [List.mem_map] at hvl
  obtain ⟨j, hj, rfl⟩ := hvl
  have hi' : i < board.length := List.mem_range.1 hi
  rcases Nat.lt_or_ge j (board.getD i []).length with hj' | hj'
  · exact hb _ (getD_mem [] hi') _ (getD_mem 0 hj')
  · rw [getD_of_length_le _ hj']
    omega

theorem getD_le_one_of_bits {x : List Nat} (hx : ∀ v ∈ x, v ≤ 1) (idx : Nat) :
    x.getD idx 0 ≤ 1 := by
  rcases Nat.lt_or_ge idx x.length with h | h
  · exact hx _ (getD_mem 0 h)
  · rw [getD_of_length_le _ h]
    omega

/-- C5: whenever `solve_lights_out` returns a solution grid for a valid
board (`R ≥ 1`, `C ≥ 1`, rectangular, bit cells), the grid has exactly `R`
rows of `C` entries each and every entry is a bit. -/
theorem c5_solution_well_formed {board S : List (List Nat)}
    (h1 : 1 ≤ board.length) (h2 : 1 ≤ (board.getD 0 []).length)
    (hrect : ∀ row ∈ board, row.length = (board.getD 0 []).length)
    (hbits : ∀ row ∈ board, ∀ v ∈ row, v ≤ 1)
    (hS : solve_lights_out board = some S) :
    S.length = board.length ∧
    (∀ row ∈ S, row.length = (board.getD 0 []).length) ∧
    (∀ row ∈ S, ∀ v ∈ row, v ≤ 1) := by
  obtain ⟨hAlen, hArlen, hAbits⟩ := buildA_ok board.length ((board.getD 0 []).length)
  have hn1 : 1 ≤ board.length * (board.getD 0 []).length := Nat.mul_pos h1 h2
  have hm : ((buildA board.length ((board.getD 0 []).length)).getD 0 []).length =
      board.length * (board.getD 0 []).length :=
    rowLen hArlen (by omega)
  have hlenAb : (buildA board.length ((board.getD 0 []).length)).length =
      (flattenBoard board).length := by
    rw [hAlen, length_flattenBoard]
  have hrlen' : ∀ row ∈ buildA board.length ((board.getD 0 []).length),
      row.length = ((buildA board.length ((board.getD 0 []).length)).getD 0 []).length := by
    intro row hrow
    rw [hm]
    exact hArlen _ hrow
  obtain ⟨x, hx, hxlen, hxbits, -⟩ :=
    gaussian_master hlenAb hrlen' hAbits (bits_flattenBoard hbits)
  have hsolve : solve_lights_out board =
      some (reshape board.length ((board.getD 0 []).length) x) := by
    show (match gaussian_elimination_gf2 (buildA board.length ((board.getD 0 []).length))
        (flattenBoard board) with
      | none => none
      | some x => some (reshape board.length ((board.getD 0 []).length) x)) =
      some (reshape board.length ((board.getD 0 []).length) x)
    rw [hx]
  rw [hsolve] at hS
  have hSeq := Option.some.inj hS
  rw [← hSeq]
  refine ⟨by simp [reshape], ?_, ?_⟩
  · intro row hrow
    rw [reshape, List.mem_map] at hrow
    obtain ⟨i, -, rfl⟩ := hrow
    simp
  · intro row hrow v hv
    rw [reshape, List.mem_map] at hrow
    obtain ⟨i, -, rfl⟩ := hrow
    rw [List.mem_map] at hv
    obtain ⟨j, -, rfl⟩ := hv
    exact getD_le_one_of_bits hxbits _

/-- C5 witness: the 1×1 board `[[1]]` solves to `[[1]]`, which has the
claimed shape and bit entries. -/
theorem c5_solution_well_formed_witness :
    ([[1]] : List (List Nat)).length = ([[1]] : List (List Nat)).length ∧
    (∀ row ∈ ([[1]] : List (List Nat)),
      row.length = (([[1]] : List (List Nat)).getD 0 []).length) ∧
    (∀ row ∈ ([[1]] : List (List Nat)), ∀ v ∈ row, v ≤ 1) :=
  @c5_solution_well_formed [[1]] [[1]] (by decide) (by decide) (by decide) (by decide)
    (by decide)

/-! Machinery for the all-zero board (C7): the last augmented column stays
zero through elimination, and back-substitution then returns the zero
vector. -/

theorem elimLoop_preserves (n m : Nat) : ∀ (k c : Nat) (aug : List (List Nat)) (p : Nat),
    aug.length = n → (∀ row ∈ aug, row.length = m + 1) → (∀ r, E aug r m = 0) →
    (elimLoop n aug p c k).1.length = n ∧
    (∀ row ∈ (elimLoop n aug p c k).1, row.length = m + 1) ∧
    (∀ r, E (elimLoop n aug p c k).1 r m = 0) := by
  intro k
  induction k with
  | zero => intro c aug p h1 h2 h3; exact ⟨h1, h2, h3⟩
  | succ k ih =>
    intro c aug p h1 h2 h3
    rcases hfp : findPivotRow aug c p (n - p) with _ | q
    · have := ih (c+1) aug p h1 h2 h3
      simpa [elimLoop, hfp] using this
    · obtain ⟨hpq, hqlt', hqE⟩ := findPivotRow_some _ _ _ hfp
      have hpn : p < n := by
        by_contra hge
        have : n - p = 0 := by omega
        omega
      have hqn : q < n := by omega
      have hplt : p < aug.length := by omega
      have hqltl : q < aug.length := by omega
      have hswlen : (swapRows aug p q).length = n := by
        rw [length_swapRows]; exact h1
      have hswrlen : ∀ row ∈ swapRows aug p q, row.length = m + 1 :=
        fun row hr => h2 _ (mem_swapRows hplt hqltl hr)
      have hswz : ∀ r, E (swapRows aug p q) r m = 0 := by
        intro r
        rw [E_swapRows hplt hqltl]
        exact h3 _
      have hstep := ih (c+1) (elimRows p c (swapRows aug p q) 0 n) (p+1)
        (by rw [length_elimRows]; exact hswlen)
        (rlen_elimRows hswrlen (by omega))
        (by
          intro r
          rw [E_elimRows hswlen hswrlen hpn]
          split
          · rw [hswz, hswz]
          · exact hswz r)
      simpa [elimLoop, hfp] using hstep

theorem valLoop_zeros (row : List Nat) (m : Nat) : ∀ (k c : Nat),
    valLoop row (List.replicate m 0) 0 c k = 0 := by
  intro k
  induction k with
  | zero => intro c; rfl
  | succ k ih =>
    intro c
    rw [valLoop]
    have hx : (List.replicate m (0:Nat)).getD c 0 = 0 := getD_replicate m c 0
    rw [hx]
    simpa using ih (c+1)

theorem backSub_zeros {aug : List (List Nat)} {m : Nat} (hz : ∀ r, E aug r m = 0) :
    ∀ (r : Nat), backSub aug m r (List.replicate m 0) = some (List.replicate m 0) := by
  intro r
  induction r with
  | zero => rfl
  | succ r ih =>
    rw [backSub]
    have h0 : (aug.getD r []).getD m 0 = 0 := hz r
    split
    · rw [if_neg (by omega)]
      exact ih
    · next lc heq =>
      have hval : valLoop (aug.getD r []) (List.replicate m 0)
          ((aug.getD r []).getD m 0) (lc+1) (m-(lc+1)) = 0 := by
        rw [h0]
        exact valLoop_zeros _ _ _ _
      rw [hval, set_replicate_self]
      exact ih

theorem map_range_const {γ : Type} (x : γ) : ∀ (k : Nat),
    (List.range k).map (fun _ => x) = List.replicate k x := by
  intro k
  induction k with
  | zero => rfl
  | succ k ih =>
    rw [List.range_succ, List.map_append, ih]
    exact (List.replicate_add k 1 x).symm

theorem flatten_replicate_zero (cols : Nat) : ∀ (rows : Nat),
    (List.replicate rows (List.replicate cols (0:Nat))).flatten =
    List.replicate (rows*cols) 0 := by
  intro rows
  induction rows with
  | zero => simp
  | succ r ih =>
    rw [List.replicate_succ, List.flatten_cons, ih, Nat.succ_mul, Nat.add_comm (r*cols) cols]
    exact (List.replicate_add cols (r*cols) 0).symm

theorem flatten_zero_board {rows cols : Nat} (h1 : 1 ≤ rows) :
    flattenBoard (List.replicate rows (List.replicate cols 0)) =
    List.replicate (rows*cols) 0 := by
  unfold flattenBoard
  have hbl : (List.replicate rows (List.replicate cols (0:Nat))).length = rows := by simp
  have hb0 : (List.replicate rows (List.replicate cols (0:Nat))).getD 0 [] =
      List.replicate cols 0 := by
    rw [List.getD_eq_getElem _ _ (by simp; omega), List.getElem_replicate]
  have hbc : ((List.replicate rows (List.replicate cols (0:Nat))).getD 0 []).length = cols := by
    rw [hb0]; simp
  rw [hbl, hbc]
  have hcell : ∀ i j : Nat,
      ((List.replicate rows (List.replicate cols (0:Nat))).getD i []).getD j 0 = 0 := by
    intro i j
    rcases Nat.lt_or_ge i rows with hi | hi
    · have hrow : (List.replicate rows (List.replicate cols (0:Nat))).getD i [] =
          List.replicate cols 0 := by
        rw [List.getD_eq_getElem _ _ (by simp; omega), List.getElem_replicate]
      rw [hrow]
      exact getD_replicate cols j 0
    · have hrow : (List.replicate rows (List.replicate cols (0:Nat))).getD i [] = [] :=
        getD_of_length_le _ (by simp; omega)
      rw [hrow]
      rfl
  have hinner : ∀ i : Nat, (List.range cols).map
      (fun j => ((List.replicate rows (List.replicate cols (0:Nat))).getD i []).getD j 0) =
      List.replicate cols 0 := by
    intro i
    rw [List.map_congr_left (fun j _ => hcell i j)]
    exact map_range_const 0 cols
  rw [List.map_congr_left (fun i _ => hinner i), map_range_const, flatten_replicate_zero]

theorem reshape_zeros (rows cols n : Nat) :
    reshape rows cols (List.replicate n 0) = List.replicate rows (List.replicate cols 0) := by
  unfold reshape
  have hinner : ∀ i : Nat, (List.range cols).map
      (fun j => (List.replicate n (0:Nat)).getD (i*cols+j) 0) = List.replicate cols 0 := by
    intro i
    rw [List.map_congr_left (fun j _ => getD_replicate n (i*cols+j) 0)]
    exact map_range_const 0 cols
  rw [List.map_congr_left (fun i _ => hinner i), map_range_const]

theorem gaussian_zero_rhs {A : List (List Nat)} {n : Nat}
    (hlen : A.length = n) (hrlen : ∀ row ∈ A, row.length = n)
    (hm : (A.getD 0 []).length = n) :
    gaussian_elimination_gf2 A (List.replicate n 0) = some (List.replicate n 0) := by
  have hlen0 : (List.zipWith (fun row bi => row ++ [bi]) A (List.replicate n (0:Nat))).length
      = n := by
    rw [List.length_zipWith]
    simp [hlen]
  have hget0 : ∀ r, r < n →
      (List.zipWith (fun row bi => row ++ [bi]) A (List.replicate n (0:Nat))).getD r [] =
        (A.getD r []) ++ [0] := by
    intro r hr
    rw [List.getD_eq_getElem _ _ (by rw [hlen0]; exact hr), List.getElem_zipWith,
      List.getD_eq_getElem _ _ (by omega), List.getElem_replicate]
  have hrlen0 : ∀ row ∈ List.zipWith (fun row bi => row ++ [bi]) A (List.replicate n (0:Nat)),
      row.length = n + 1 := by
    intro row hrow
    rcases mem_getD_exists hrow with ⟨r, hr, hD⟩
    rw [hlen0] at hr
    rw [← hD, hget0 r hr, List.length_append, rowLen hrlen (by omega)]
    rfl
  have hz0 : ∀ r, E (List.zipWith (fun row bi => row ++ [bi]) A (List.replicate n (0:Nat))) r n
      = 0 := by
    intro r
    rcases Nat.lt_or_ge r n with hr | hr
    · have h := hget0 r hr
      have : E (List.zipWith (fun row bi => row ++ [bi]) A (List.replicate n (0:Nat))) r n =
          ((A.getD r []) ++ [0]).getD n 0 := congrArg (fun l => l.getD n 0) h
      rw [this, List.getD_append_right _ _ _ _ (by rw [rowLen hrlen (by omega)]),
        rowLen hrlen (by omega)]
      simp
    · exact E_row_oob n (by omega)
  obtain ⟨-, -, hzF⟩ := elimLoop_preserves n n ((A.getD 0 []).length) 0
    (List.zipWith (fun row bi => row ++ [bi]) A (List.replicate n (0:Nat))) 0
    hlen0 hrlen0 hz0
  show backSub (elimLoop (List.replicate n (0:Nat)).length
      (List.zipWith (fun row bi => row ++ [bi]) A (List.replicate n (0:Nat))) 0 0
      ((A.getD 0 []).length)).1 ((A.getD 0 []).length)
    (min (elimLoop (List.replicate n (0:Nat)).length
      (List.zipWith (fun row bi => row ++ [bi]) A (List.replicate n (0:Nat))) 0 0
      ((A.getD 0 []).length)).2 (List.replicate n (0:Nat)).length)
    (List.replicate ((A.getD 0 []).length) 0) = some (List.replicate n 0)
  rw [List.length_replicate]
  rw [hm] at hzF ⊢
  exact backSub_zeros hzF _

/-- C7: for every all-zero board with `R ≥ 1` rows and `C ≥ 1` columns,
`solve_lights_out` returns the all-zero grid of the same shape (pressing
nothing already solves it): the zero right-hand side stays zero through all
XOR row operations, so back-substitution assigns every variable `0`. -/
theorem c7_zero_board_zero_solution (rows cols : Nat) (h1 : 1 ≤ rows) (h2 : 1 ≤ cols) :
    solve_lights_out (List.replicate rows (List.replicate cols 0)) =
    some (List.replicate rows (List.replicate cols 0)) := by
  obtain ⟨hAlen, hArlen, -⟩ := buildA_ok rows cols
  have hn1 : 1 ≤ rows*cols := Nat.mul_pos h1 h2
  have hm : ((buildA rows cols).getD 0 []).length = rows*cols :=
    rowLen hArlen (by omega)
  have hg := gaussian_zero_rhs hAlen hArlen hm
  have hbl : (List.replicate rows (List.replicate cols (0:Nat))).length = rows := by simp
  have hbc : ((List.replicate rows (List.replicate cols (0:Nat))).getD 0 []).length = cols := by
    rw [List.getD_eq_getElem _ _ (by simp; omega), List.getElem_replicate]
    simp
  show (match gaussian_elimination_gf2
      (buildA (List.replicate rows (List.replicate cols (0:Nat))).length
        (((List.replicate rows (List.replicate cols (0:Nat))).getD 0 []).length))
      (flattenBoard (List.replicate rows (List.replicate cols 0))) with
    | none => none
    | some x => some (reshape (List.replicate rows (List.replicate cols (0:Nat))).length
        (((List.replicate rows (List.replicate cols (0:Nat))).getD 0 []).length) x)) =
    some (List.replicate rows (List.replicate cols 0))
  rw [hbl, hbc, flatten_zero_board h1, hg]
  show some (reshape rows cols (List.replicate (rows*cols) 0)) =
    some (List.replicate rows (List.replicate cols 0))
  rw [reshape_zeros]

/-- C7 witness: the concrete 2×2 instance of the spec,
`solve([[0,0],[0,0]]) = [[0,0],[0,0]]`. -/
theorem c7_zero_board_zero_solution_witness :
    solve_lights_out [[0,0],[0,0]] = some [[0,0],[0,0]] :=
  c7_zero_board_zero_solution 2 2 (by decide) (by decide)

/-! Characterisation of the constructed coefficient matrix (C3). -/

theorem E_setE_in {A : List (List Nat)} {r c : Nat} (hr : r < A.length)
    (hc : c < (A.getD r []).length) (v l c' : Nat) :
    E (setE A r c v) l c' = if l = r ∧ c' = c then v else E A l c' := by
  unfold setE E
  by_cases hl : l = r
  · rw [hl, getD_set_self _ _ hr]
    by_cases hcc : c' = c
    · rw [hcc, getD_set_self _ _ hc, if_pos ⟨rfl, rfl⟩]
    · rw [getD_set_ne _ _ (fun h => hcc h.symm), if_neg (by rintro ⟨-, h⟩; exact hcc h)]
  · rw [getD_set_ne _ _ (fun h => hl h.symm), if_neg (by rintro ⟨h, -⟩; exact hl h)]

theorem E_condSetE {X : List (List Nat)} {n : Nat} (hX : X.length = n)
    (hXr : ∀ row ∈ X, row.length = n) (P : Prop) [Decidable P] {r c0 : Nat}
    (hr : P → r < n) (hc0 : c0 < n) (l c : Nat) :
    E (if P then setE X r c0 1 else X) l c =
      if P ∧ l = r ∧ c = c0 then 1 else E X l c := by
  split
  · next hp =>
    have hrX : r < X.length := by rw [hX]; exact hr hp
    rw [E_setE_in hrX (by rw [rowLen hXr hrX]; exact hc0)]
    by_cases h : l = r ∧ c = c0
    · rw [if_pos h, if_pos ⟨hp, h.1, h.2⟩]
    · rw [if_neg h, if_neg (by rintro ⟨-, h1, h2⟩; exact h ⟨h1, h2⟩)]
  · next hp =>
    rw [if_neg (by rintro ⟨hP, -⟩; exact hp hP)]

theorem enc_lt {i j rows cols : Nat} (hj : j < cols) (hi : i < rows) :
    i*cols+j < rows*cols := by
  have h1 : i*cols + j < i*cols + cols := by omega
  have h2 : i*cols + cols = (i+1)*cols := by rw [Nat.succ_mul]
  have h3 : (i+1)*cols ≤ rows*cols := Nat.mul_le_mul_right cols hi
  omega

theorem lt_of_enc_lt {i j rows cols : Nat} (h : i*cols+j < rows*cols) : i < rows := by
  by_contra hge
  have hge' : rows ≤ i := by omega
  have : rows*cols ≤ i*cols := Nat.mul_le_mul_right cols hge'
  omega

theorem enc_div {i j cols : Nat} (hj : j < cols) : (i*cols+j)/cols = i := by
  have h : i*cols + j = j + cols*i := by ring
  rw [h, Nat.add_mul_div_left _ _ (by omega : 0 < cols), Nat.div_eq_of_lt hj]
  omega

theorem enc_mod {i j cols : Nat} (hj : j < cols) : (i*cols+j)%cols = j := by
  have h : i*cols + j = j + cols*i := by ring
  rw [h, Nat.add_mul_mod_self_left, Nat.mod_eq_of_lt hj]

theorem if_or_merge (P Q : Prop) [Decidable P] [Decidable Q] (x : Nat) :
    (if P then 1 else if Q then 1 else x) = if P ∨ Q then 1 else x := by
  split_ifs <;> tauto

theorem pressStep_E {rows cols n i j : Nat} {A : List (List Nat)} (hn : rows*cols = n)
    (hA : A.length = n) (hAr : ∀ row ∈ A, row.length = n)
    (hAb : ∀ row ∈ A, ∀ v ∈ row, v ≤ 1)
    (hi : i < rows) (hj : j < cols) (l c : Nat) :
    E (pressStep rows cols i j A) l c =
      if c = i*cols+j ∧ pressWrites rows cols i j l then 1 else E A l c := by
  have hb : i*cols+j < n := hn ▸ enc_lt hj hi
  have h1 := setE_preserve (i*cols+j) (i*cols+j) ⟨hA, hAr, hAb⟩
  have h2 := condSetE_preserve (0 < i) ((i-1)*cols+j) (i*cols+j) h1
  have h3 := condSetE_preserve (i < rows-1) ((i+1)*cols+j) (i*cols+j) h2
  have h4 := condSetE_preserve (0 < j) (i*cols+(j-1)) (i*cols+j) h3
  unfold pressStep
  rw [E_condSetE h4.1 h4.2.1 (j < cols-1)
      (fun h => hn ▸ enc_lt (by omega) hi) hb l c,
    E_condSetE h3.1 h3.2.1 (0 < j)
      (fun h => hn ▸ enc_lt (by omega) hi) hb l c,
    E_condSetE h2.1 h2.2.1 (i < rows-1)
      (fun h => hn ▸ enc_lt hj (by omega)) hb l c,
    E_condSetE h1.1 h1.2.1 (0 < i)
      (fun h => hn ▸ enc_lt hj (by omega)) hb l c,
    E_setE_in (by rw [hA]; exact hn ▸ enc_lt hj hi)
      (by rw [rowLen hAr (by rw [hA]; exact hn ▸ enc_lt hj hi)]; exact hb)]
  rw [if_or_merge, if_or_merge, if_or_merge, if_or_merge]
  refine if_congr ?_ rfl rfl
  unfold pressWrites
  tauto

open Classical in
theorem innerFold_E {rows cols n i : Nat} (hn : rows*cols = n) (hi : i < rows) :
    ∀ (k s : Nat), s + k ≤ cols → ∀ (A : List (List Nat)), A.length = n →
      (∀ row ∈ A, row.length = n) → (∀ row ∈ A, ∀ v ∈ row, v ≤ 1) → ∀ (l c : Nat),
      E (List.foldl (fun X j => pressStep rows cols i j X) A (List.range' s k)) l c =
        if ∃ j, s ≤ j ∧ j < s + k ∧ c = i*cols+j ∧ pressWrites rows cols i j l
        then 1 else E A l c := by
  intro k
  induction k with
  | zero =>
    intro s hs A hA hAr hAb l c
    rw [if_neg (by rintro ⟨j, h1, h2, -⟩; omega)]
    rfl
  | succ k ih =>
    intro s hs A hA hAr hAb l c
    rw [List.range'_succ, List.foldl_cons]
    have hsc : s < cols := by omega
    have hstep : (pressStep rows cols i s A).length = n ∧
        (∀ row ∈ pressStep rows cols i s A, row.length = n) ∧
        (∀ row ∈ pressStep rows cols i s A, ∀ v ∈ row, v ≤ 1) :=
      pressStep_preserve ⟨hA, hAr, hAb⟩
    rw [ih (s+1) (by omega) _ hstep.1 hstep.2.1 hstep.2.2 l c]
    rw [pressStep_E hn hA hAr hAb hi hsc l c]
    by_cases h1 : ∃ j, s+1 ≤ j ∧ j < s+1+k ∧ c = i*cols+j ∧ pressWrites rows cols i j l
    · rw [if_pos h1, if_pos (by
        obtain ⟨j, hj1, hj2, hj3, hj4⟩ := h1
        exact ⟨j, by omega, by omega, hj3, hj4⟩)]
    · rw [if_neg h1]
      by_cases h2 : c = i*cols+s ∧ pressWrites rows cols i s l
      · rw [if_pos h2, if_pos ⟨s, Nat.le_refl s, by omega, h2.1, h2.2⟩]
      · rw [if_neg h2, if_neg (by
          rintro ⟨j, hj1, hj2, hj3, hj4⟩
          rcases Nat.eq_or_lt_of_le hj1 with rfl | hlt
          · exact h2 ⟨hj3, hj4⟩
          · exact h1 ⟨j, by omega, by omega, hj3, hj4⟩)]

open Classical in
theorem outerFold_E {rows cols n : Nat} (hn : rows*cols = n) :
    ∀ (k s : Nat), s + k ≤ rows → ∀ (A : List (List Nat)), A.length = n →
      (∀ row ∈ A, row.length = n) → (∀ row ∈ A, ∀ v ∈ row, v ≤ 1) → ∀ (l c : Nat),
      E (List.foldl (fun X i => List.foldl (fun Y j => pressStep rows cols i j Y) X
          (List.range cols)) A (List.range' s k)) l c =
        if ∃ i j, s ≤ i ∧ i < s + k ∧ j < cols ∧ c = i*cols+j ∧
            pressWrites rows cols i j l
        then 1 else E A l c := by
  intro k
  induction k with
  | zero =>
    intro s hs A hA hAr hAb l c
    rw [if_neg (by rintro ⟨i, j, h1, h2, -⟩; omega)]
    rfl
  | succ k ih =>
    intro s hs A hA hAr hAb l c
    rw [List.range'_succ, List.foldl_cons]
    have hsr : s < rows := by omega
    have hstep : (List.foldl (fun Y j => pressStep rows cols s j Y) A
        (List.range cols)).length = n ∧
        (∀ row ∈ List.foldl (fun Y j => pressStep rows cols s j Y) A
          (List.range cols), row.length = n) ∧
        (∀ row ∈ List.foldl (fun Y j => pressStep rows cols s j Y) A
          (List.range cols), ∀ v ∈ row, v ≤ 1) :=
      foldl_preserve
        (fun X => X.length = n ∧ (∀ row ∈ X, row.length = n) ∧
          (∀ row ∈ X, ∀ v ∈ row, v ≤ 1))
        (fun Y j => pressStep rows cols s j Y)
        (fun Y j hY => pressStep_preserve hY) _ _ ⟨hA, hAr, hAb⟩
    rw [ih (s+1) (by omega) _ hstep.1 hstep.2.1 hstep.2.2 l c]
    have hinner := innerFold_E hn hsr cols 0 (by omega) A hA hAr hAb l c
    rw [← List.range_eq_range'] at hinner
    rw [hinner]
    by_cases h1 : ∃ i j, s+1 ≤ i ∧ i < s+1+k ∧ j < cols ∧ c = i*cols+j ∧
        pressWrites rows cols i j l
    · rw [if_pos h1, if_pos (by
        obtain ⟨i, j, hi1, hi2, hj, hc, hw⟩ := h1
        exact ⟨i, j, by omega, by omega, hj, hc, hw⟩)]
    · rw [if_neg h1]
      by_cases h2 : ∃ j, 0 ≤ j ∧ j < 0 + cols ∧ c = s*cols+j ∧
          pressWrites rows cols s j l
      · rw [if_pos h2, if_pos (by
          obtain ⟨j, -, hj, hc, hw⟩ := h2
          exact ⟨s, j, Nat.le_refl s, by omega, by omega, hc, hw⟩)]
      · rw [if_neg h2, if_neg (by
          rintro ⟨i, j, hi1, hi2, hj, hc, hw⟩
          rcases Nat.eq_or_lt_of_le hi1 with rfl | hlt
          · exact h2 ⟨j, Nat.zero_le j, by omega, hc, hw⟩
          · exact h1 ⟨i, j, by omega, by omega, hj, hc, hw⟩)]

open Classical in
theorem buildA_E (rows cols l c : Nat) :
    E (buildA rows cols) l c =
      if ∃ i j, i < rows ∧ j < cols ∧ c = i*cols+j ∧ pressWrites rows cols i j l
      then 1 else 0 := by
  have h0len : (List.replicate (rows*cols) (List.replicate (rows*cols) (0:Nat))).length
      = rows*cols := by simp
  have h0r : ∀ row ∈ List.replicate (rows*cols) (List.replicate (rows*cols) (0:Nat)),
      row.length = rows*cols := by
    intro row h
    rw [List.eq_of_mem_replicate h]
    simp
  have h0b : ∀ row ∈ List.replicate (rows*cols) (List.replicate (rows*cols) (0:Nat)),
      ∀ v ∈ row, v ≤ 1 := by
    intro row h v hv
    rw [List.eq_of_mem_replicate h] at hv
    rw [List.eq_of_mem_replicate hv]
    omega
  have hE0 : E (List.replicate (rows*cols) (List.replicate (rows*cols) (0:Nat))) l c = 0 := by
    rcases Nat.lt_or_ge l (rows*cols) with hl | hl
    · have hrow : (List.replicate (rows*cols) (List.replicate (rows*cols) (0:Nat))).getD l []
          = List.replicate (rows*cols) 0 := by
        rw [List.getD_eq_getElem _ _ (by simp; omega), List.getElem_replicate]
      show ((List.replicate (rows*cols) (List.replicate (rows*cols) (0:Nat))).getD l []).getD
        c 0 = 0
      rw [hrow]
      exact getD_replicate _ c 0
    · exact E_row_oob c (by simp; omega)
  have houter := outerFold_E (rfl : rows*cols = rows*cols) rows 0 (by omega) _
    h0len h0r h0b l c
  rw [← List.range_eq_range'] at houter
  show E ((List.range rows).foldl
    (fun A i => (List.range cols).foldl (fun A j => pressStep rows cols i j A) A)
    (List.replicate (rows*cols) (List.replicate (rows*cols) 0))) l c = _
  rw [houter, hE0]
  refine if_congr ?_ rfl rfl
  constructor
  · rintro ⟨i, j, -, hi, hj, hc, hw⟩
    exact ⟨i, j, by omega, hj, hc, hw⟩
  · rintro ⟨i, j, hi, hj, hc, hw⟩
    exact ⟨i, j, Nat.zero_le i, by omega, hj, hc, hw⟩

open Classical in
theorem pressWrites_iff_togglesRel {rows cols light button : Nat}
    (hc : 1 ≤ cols) (hlight : light < rows*cols) (hbutton : button < rows*cols) :
    (∃ i j, i < rows ∧ j < cols ∧ button = i*cols+j ∧ pressWrites rows cols i j light) ↔
    togglesRel (light/cols) (light%cols) (button/cols) (button%cols) := by
  constructor
  · rintro ⟨i, j, hi, hj, rfl, hw⟩
    rw [enc_div hj, enc_mod hj]
    unfold pressWrites at hw
    unfold togglesRel
    rcases hw with h | ⟨hi0, h⟩ | ⟨hirows, h⟩ | ⟨hj0, h⟩ | ⟨hjcols, h⟩ <;> subst h
    · rw [enc_div hj, enc_mod hj]
      exact Or.inl ⟨rfl, rfl⟩
    · rw [enc_div hj, enc_mod hj]
      exact Or.inr (Or.inr (Or.inr (Or.inr ⟨rfl, by omega⟩)))
    · rw [enc_div hj, enc_mod hj]
      exact Or.inr (Or.inr (Or.inr (Or.inl ⟨rfl, rfl⟩)))
    · rw [enc_div (by omega : j-1 < cols), enc_mod (by omega : j-1 < cols)]
      exact Or.inr (Or.inr (Or.inl ⟨rfl, by omega⟩))
    · rw [enc_div (by omega : j+1 < cols), enc_mod (by omega : j+1 < cols)]
      exact Or.inr (Or.inl ⟨rfl, rfl⟩)
  · intro h
    have hc0 : 0 < cols := by omega
    have hbj : button%cols < cols := Nat.mod_lt _ hc0
    have hlj : light%cols < cols := Nat.mod_lt _ hc0
    have hbi : button/cols < rows := by
      rw [Nat.div_lt_iff_lt_mul hc0]
      exact hbutton
    have hli : light/cols < rows := by
      rw [Nat.div_lt_iff_lt_mul hc0]
      exact hlight
    have hbenc : button = (button/cols)*cols + button%cols := by
      have hmod := Nat.div_add_mod button cols
      rw [Nat.mul_comm] at hmod
      exact hmod.symm
    have hlenc : light = (light/cols)*cols + light%cols := by
      have hmod := Nat.div_add_mod light cols
      rw [Nat.mul_comm] at hmod
      exact hmod.symm
    refine ⟨button/cols, button%cols, hbi, hbj, hbenc, ?_⟩
    unfold togglesRel at h
    unfold pressWrites
    rcases h with ⟨ha, hb'⟩ | ⟨ha, hb'⟩ | ⟨ha, hb'⟩ | ⟨ha, hb'⟩ | ⟨ha, hb'⟩
    · exact Or.inl (by rw [ha, hb']; exact hlenc)
    · refine Or.inr (Or.inr (Or.inr (Or.inr ⟨by omega, ?_⟩)))
      rw [ha, ← hb']
      exact hlenc
    · refine Or.inr (Or.inr (Or.inr (Or.inl ⟨by omega, ?_⟩)))
      rw [ha, hb', Nat.add_sub_cancel]
      exact hlenc
    · refine Or.inr (Or.inr (Or.inl ⟨by omega, ?_⟩))
      rw [← hb', ha]
      exact hlenc
    · refine Or.inr (Or.inl ⟨by rw [hb']; exact Nat.succ_pos _, ?_⟩)
      rw [hb', Nat.add_sub_cancel, ha]
      exact hlenc

open Classical in
/-- C3: for every `rows ≥ 1`, `cols ≥ 1` and in-range `light`, `button`
indices (below `n = rows*cols`), the constructed coefficient matrix
satisfies `A[light][button] = 1` exactly when, decoding
`light = (light/cols, light%cols)` and `button = (button/cols, button%cols)`,
the button cell equals the light cell or is one of its in-bounds
4-neighbours (up, down, left, right, no wraparound); all other entries
are `0`. -/
theorem c3_matrix_encodes_adjacency (rows cols light button : Nat)
    (h1 : 1 ≤ rows) (h2 : 1 ≤ cols) (hl : light < rows*cols) (hb : button < rows*cols) :
    E (buildA rows cols) light button =
      if togglesRel (light/cols) (light%cols) (button/cols) (button%cols)
      then 1 else 0 := by
  rw [buildA_E]
  exact if_congr (pressWrites_iff_togglesRel h2 hl hb) rfl rfl

/-- C3 witness: on the 2×2 grid, light `(0,0)` is toggled by button `(0,1)`
(its right neighbour), so `A[0][1] = 1`. -/
theorem c3_matrix_encodes_adjacency_witness :
    E (buildA 2 2) 0 1 =
      if togglesRel (0/2) (0%2) (1/2) (1%2) then 1 else 0 :=
  c3_matrix_encodes_adjacency 2 2 0 1 (by decide) (by decide) (by decide) (by decide)

/-- C9: `solve_lights_out` never mutates its input board.  In the
state-passing embedding `solve_lights_out_st`, which performs the same
computation while threading every store the Python code writes to (`A`,
`b`, `aug`, `x` — the only assignment targets in main.py lines 3-107, all
freshly allocated, none aliasing `board`), the `board` store after the call
holds exactly its initial value, and the returned result agrees with the
direct embedding `solve_lights_out`. -/
theorem c9_board_not_mutated (board : List (List Nat)) :
    ((solve_lights_out_st (initVars board)).1).board = board ∧
    (solve_lights_out_st (initVars board)).2 = solve_lights_out board := by
  unfold solve_lights_out_st initVars solve_lights_out gaussian_elimination_gf2
  dsimp only
  cases hb : backSub (elimLoop (flattenBoard board).length
      (List.zipWith (fun row bi => row ++ [bi])
        (buildA board.length ((board.getD 0 []).length)) (flattenBoard board)) 0 0
      ((buildA board.length ((board.getD 0 []).length)).getD 0 []).length).1
      ((buildA board.length ((board.getD 0 []).length)).getD 0 []).length
      (min (elimLoop (flattenBoard board).length
        (List.zipWith (fun row bi => row ++ [bi])
          (buildA board.length ((board.getD 0 []).length)) (flattenBoard board)) 0 0
        ((buildA board.length ((board.getD 0 []).length)).getD 0 []).length).2
        (flattenBoard board).length)
      (List.replicate ((buildA board.length ((board.getD 0 []).length)).getD 0 []).length 0)
    with
  | none => exact ⟨rfl, rfl⟩
  | some xv => exact ⟨rfl, rfl⟩

